import Mathlib

/-!
Verification of the `pkg` audit-pipeline repository (Go) against its
natural-language specification.

The development shallowly embeds the relevant Go functions over `String`
(internally `List Char`, so every definition is executable and kernel-
reducible), `Nat`/`Int` and `List`:

* package `phpcompat` (`PreviousVersion`, `MergeVersions`, `ExcludeVersions`,
  `PhpMajorVersions`, `BreaksVersions`, `NonBreakingVersions` and the static
  PHP version catalogue);
* package `zip` (`combinedChecksum` with a concrete SHA-256, and the
  root-prefix stripping of `unzip`);
* package `process` (`validateMessage` and the checksum step of `Ingest.Do`).

Fallible Go code (slice indexing that can panic, functions that return
errors) is embedded with `Option`: `none` models the Go panic or error at
that point, as noted on each definition.
-/

namespace GoStr

/-- Split a character list at every occurrence of `c`, keeping empty pieces,
as Go's `strings.Split` does on a one-character separator (`Split("", sep)`
is `[""]`, hence the `[[]]` base case). -/
def splitCh (c : Char) : List Char → List (List Char)
  | [] => [[]]
  | x :: xs =>
    match splitCh c xs with
    | [] => [[x]]
    | y :: ys => if x = c then [] :: y :: ys else (x :: y) :: ys

/-- Go's `strings.Split(s, ".")`. -/
def goSplitDot (s : String) : List String :=
  (splitCh '.' s.data).map String.mk

/-- Value of a non-empty all-digit character list, `none` otherwise. -/
def digitsVal (ds : List Char) : Option Nat :=
  if ds.isEmpty then none
  else ds.foldl
    (fun acc c =>
      match acc with
      | none => none
      | some n => if c.isDigit then some (n * 10 + (c.toNat - 48)) else none)
    (some 0)

/-- Go's `strconv.Atoi` with the error ignored, as the source ignores it:
the parsed integer on success and `0` on any parse failure. -/
def goAtoi (s : String) : Int :=
  match s.data with
  | '-' :: ds =>
    match digitsVal ds with
    | some n => -(n : Int)
    | none => 0
  | '+' :: ds =>
    match digitsVal ds with
    | some n => (n : Int)
    | none => 0
  | ds =>
    match digitsVal ds with
    | some n => (n : Int)
    | none => 0

/-- Join string pieces with `"."`, Go's `strings.Join(parts, ".")`. -/
def joinDot (parts : List String) : String :=
  String.mk (List.intercalate ['.'] (parts.map String.data))

/-- Lowercase a string character-wise, Go's `strings.ToLower` restricted to
the ASCII letters that appear in the message types the code compares. -/
def goToLower (s : String) : String :=
  String.mk (s.data.map Char.toLower)

/-- Byte length of a string (Go's `len` on a string counts UTF-8 bytes). -/
def goLen (s : String) : Nat :=
  (s.data.map (fun c => c.utf8Size)).sum

/-- Go's `strings.TrimPrefix`: drop `p` from the front of `s` when it is a
prefix, otherwise return `s` unchanged. -/
def goTrimLeft (s p : String) : String :=
  if p.data.isPrefixOf s.data then String.mk (s.data.drop p.data.length) else s

/-- Lexicographic strict order on character lists by code point. Go compares
strings byte-wise; on UTF-8 encodings byte order and code-point order agree,
so this is the order `sort.Strings` and `<` on Go strings induce. -/
def lexLt : List Char → List Char → Bool
  | _, [] => false
  | [], _ :: _ => true
  | a :: as, b :: bs =>
    if a.toNat < b.toNat then true
    else if b.toNat < a.toNat then false
    else lexLt as bs

/-- Go's `<` on strings. -/
def strLtB (s t : String) : Bool :=
  lexLt s.data t.data

/-- Go's `<=` on strings, the sort order of `sort.Strings`. -/
def strLeB (s t : String) : Bool :=
  !(lexLt t.data s.data)

/-- Propositional form of `strLtB`, strict ascending order. -/
def SLt (s t : String) : Prop :=
  strLtB s t = true

/-- Propositional form of `strLeB`. -/
def SLe (s t : String) : Prop :=
  strLeB s t = true

instance : DecidableRel SLt :=
  fun s t => inferInstanceAs (Decidable (strLtB s t = true))

instance : DecidableRel SLe :=
  fun s t => inferInstanceAs (Decidable (strLeB s t = true))

theorem char_eq_of_toNat_eq {a b : Char} (h : a.toNat = b.toNat) : a = b :=
  Char.eq_of_val_eq (UInt32.val_injective (by exact Fin.val_injective h))

theorem lexLt_irrefl : ∀ l, lexLt l l = false
  | [] => rfl
  | a :: as => by simp [lexLt, lexLt_irrefl as]

theorem lexLt_asymm : ∀ l m, lexLt l m = true → lexLt m l = false
  | _ :: _, [], h => by simp [lexLt] at h
  | [], [], h => by simp [lexLt] at h
  | [], _ :: _, _ => rfl
  | a :: as, b :: bs, h => by
    unfold lexLt at h ⊢
    by_cases hab : a.toNat < b.toNat
    · rw [if_neg (by omega : ¬ b.toNat < a.toNat), if_pos hab]
    · rw [if_neg hab] at h
      by_cases hba : b.toNat < a.toNat
      · rw [if_pos hba] at h
        exact absurd h (by simp)
      · rw [if_neg hba] at h
        rw [if_neg hba, if_neg hab]
        exact lexLt_asymm as bs h

theorem lexLt_trans : ∀ l m n : List Char,
    lexLt l m = true → lexLt m n = true → lexLt l n = true
  | _, m, [], _, h2 => by cases m <;> simp [lexLt] at h2
  | [], _, _ :: _, _, _ => rfl
  | a :: as, [], n :: ns, h1, _ => by simp [lexLt] at h1
  | a :: as, b :: bs, n :: ns, h1, h2 => by
    unfold lexLt at h1 h2 ⊢
    by_cases hab : a.toNat < b.toNat
    · by_cases hbn : b.toNat < n.toNat
      · rw [if_pos (by omega : a.toNat < n.toNat)]
      · rw [if_neg hbn] at h2
        by_cases hnb : n.toNat < b.toNat
        · rw [if_pos hnb] at h2
          exact absurd h2 (by simp)
        · rw [if_pos (by omega : a.toNat < n.toNat)]
    · rw [if_neg hab] at h1
      by_cases hba : b.toNat < a.toNat
      · rw [if_pos hba] at h1
        exact absurd h1 (by simp)
      · rw [if_neg hba] at h1
        by_cases hbn : b.toNat < n.toNat
        · rw [if_pos (by omega : a.toNat < n.toNat)]
        · rw [if_neg hbn] at h2
          by_cases hnb : n.toNat < b.toNat
          · rw [if_pos hnb] at h2
            exact absurd h2 (by simp)
          · rw [if_neg hnb] at h2
            rw [if_neg (by omega : ¬ a.toNat < n.toNat),
              if_neg (by omega : ¬ n.toNat < a.toNat)]
            exact lexLt_trans as bs ns h1 h2

theorem lexLt_connex : ∀ l m : List Char,
    lexLt l m = false → lexLt m l = false → l = m
  | [], [], _, _ => rfl
  | [], _ :: _, h1, _ => by simp [lexLt] at h1
  | _ :: _, [], _, h2 => by simp [lexLt] at h2
  | a :: as, b :: bs, h1, h2 => by
    unfold lexLt at h1 h2
    by_cases hab : a.toNat < b.toNat
    · rw [if_pos hab] at h1
      exact absurd h1 (by simp)
    · by_cases hba : b.toNat < a.toNat
      · rw [if_pos hba] at h2
        exact absurd h2 (by simp)
      · rw [if_neg hab, if_neg hba] at h1
        rw [if_neg hba, if_neg hab] at h2
        have hc : a = b := char_eq_of_toNat_eq (by omega)
        rw [hc, lexLt_connex as bs h1 h2]

theorem str_ext {s t : String} (h : s.data = t.data) : s = t := by
  cases s; cases t; cases h; rfl

/-- Sorting a string slice ascending, Go's `sort.Strings`. Go's byte-wise
ordering coincides with the character-wise ordering used here because UTF-8
byte order agrees with code-point order; any correct sort produces the same
list, so insertion sort stands in for Go's unstable in-place sort. -/
def sortStrings (l : List String) : List String :=
  l.insertionSort SLe


instance : IsTotal String SLe where
  total s t := by
    unfold SLe strLeB
    simp only [Bool.not_eq_true']
    by_cases h : lexLt t.data s.data = true
    · exact Or.inr (lexLt_asymm _ _ h)
    · exact Or.inl (by simpa using h)

instance : IsTrans String SLe where
  trans s t u hst htu := by
    unfold SLe strLeB at hst htu ⊢
    simp only [Bool.not_eq_true'] at hst htu ⊢
    by_cases hus : lexLt u.data s.data = true
    · by_cases htu2 : lexLt t.data u.data = true
      · have h := lexLt_trans _ _ _ htu2 hus
        rw [h] at hst
        exact absurd hst (by simp)
      · have h : t.data = u.data :=
          lexLt_connex _ _ (by simpa using htu2) htu
        rw [← h] at hus
        rw [hus] at hst
        exact absurd hst (by simp)
    · simpa using hus

instance : IsAntisymm String SLe where
  antisymm s t hst hts := by
    unfold SLe strLeB at hst hts
    simp only [Bool.not_eq_true'] at hst hts
    exact str_ext (lexLt_connex _ _ hts hst)

theorem SLt_of_SLe_of_ne {s t : String} (hle : SLe s t) (hne : s ≠ t) :
    SLt s t := by
  unfold SLe strLeB at hle
  unfold SLt strLtB
  simp only [Bool.not_eq_true'] at hle
  by_cases h : lexLt s.data t.data = true
  · exact h
  · exact absurd (str_ext (lexLt_connex _ _ (by simpa using h) hle)) hne

theorem SLt_irrefl (s : String) : ¬ SLt s s := by
  unfold SLt strLtB
  simp [lexLt_irrefl]

theorem mem_sortStrings {l : List String} {x : String} :
    x ∈ sortStrings l ↔ x ∈ l :=
  (List.perm_insertionSort _ l).mem_iff

theorem sortStrings_sorted (l : List String) :
    List.Sorted SLe (sortStrings l) :=
  List.sorted_insertionSort _ l

theorem sortStrings_nodup {l : List String} (h : l.Nodup) :
    (sortStrings l).Nodup :=
  ((List.perm_insertionSort _ l).nodup_iff).mpr h

theorem sortStrings_eq_of_perm {l₁ l₂ : List String} (h : l₁.Perm l₂) :
    sortStrings l₁ = sortStrings l₂ :=
  List.eq_of_perm_of_sorted
    ((List.perm_insertionSort SLe l₁).trans
      (h.trans (List.perm_insertionSort SLe l₂).symm))
    (List.sorted_insertionSort SLe l₁) (List.sorted_insertionSort SLe l₂)

theorem sortStrings_ne_nil {l : List String} (h : l ≠ []) :
    sortStrings l ≠ [] := by
  intro hs
  have hs2 : List.insertionSort SLe l = [] := hs
  have hp := (List.perm_insertionSort SLe l).symm
  rw [hs2] at hp
  exact h hp.eq_nil

end GoStr

namespace Phpcompat

open GoStr

/-- Highest released patch for a catalogue `major.minor`, from the source's
`phpVersions` map; a missing key yields `""`, the Go zero value produced by
indexing a nested map that has no such entry. -/
def phpVersionsMax (mm : String) : String :=
  if mm = "5.2" then "5.2.17"
  else if mm = "5.3" then "5.3.29"
  else if mm = "5.4" then "5.4.45"
  else if mm = "5.5" then "5.5.38"
  else if mm = "5.6" then "5.6.40"
  else if mm = "7.0" then "7.0.33"
  else if mm = "7.1" then "7.1.31"
  else if mm = "7.2" then "7.2.21"
  else if mm = "7.3" then "7.3.8"
  else ""

/-- Keys of the `phpVersions` map paired with their max patch, in source
declaration order. Go map iteration order is unspecified; every use in the
source sorts afterwards, so only the set matters. -/
def phpVersionsList : List (String × String) :=
  [("5.2", "5.2.17"), ("5.3", "5.3.29"), ("5.4", "5.4.45"), ("5.5", "5.5.38"),
   ("5.6", "5.6.40"), ("7.0", "7.0.33"), ("7.1", "7.1.31"), ("7.2", "7.2.21"),
   ("7.3", "7.3.8")]

/-- The source's `PhpLatest` constant. -/
def PhpLatest : String := "7.3.8"

/-- The source's `PreviousVersion`. `none` models the Go panics: the
out-of-range slice index `parts[2]` for a dotless input, and `maxPrev[2]`
when the previous `major.minor` is absent from the catalogue (the lookup
returns `""`, which splits into a one-element slice). -/
def PreviousVersion (version : String) : Option String :=
  if version = "all" then some version
  else if version = "5.2" ∨ version = "5.2.0" then some "5.2.0"
  else
    let parts0 := goSplitDot version
    let parts := if parts0.length < 3 then parts0 ++ ["0"] else parts0
    do
      let part0 ← parts[0]?
      let part1 ← parts[1]?
      let part2 ← parts[2]?
      let maxPrev :=
        if part1 = "0" then
          let mMPre := if part0 ++ "." ++ part1 = "7.0" then "5.6" else ""
          goSplitDot (phpVersionsMax mMPre)
        else
          goSplitDot (phpVersionsMax (part0 ++ "." ++ toString (goAtoi part1 - 1)))
      let p3 := goAtoi part2 - 1
      if p3 < 0 then do
        let m2 ← maxPrev[2]?
        if part1 = "0" then do
          let m1 ← maxPrev[1]?
          let m0 ← maxPrev[0]?
          some (joinDot (((parts.set 2 m2).set 1 m1).set 0 m0))
        else
          some (joinDot ((parts.set 2 m2).set 1 (toString (goAtoi part1 - 1))))
      else
        some (joinDot (parts.set 2 (toString p3)))

end Phpcompat

namespace Phpcompat

open GoStr

/-- The nine catalogue minors as numeric `(major, minor)` pairs with their
highest released patch number, mirroring `phpVersions`. -/
def catalogueMaxPatch : List ((Nat × Nat) × Nat) :=
  [((5, 2), 17), ((5, 3), 29), ((5, 4), 45), ((5, 5), 38), ((5, 6), 40),
   ((7, 0), 33), ((7, 1), 31), ((7, 2), 21), ((7, 3), 8)]

/-- Render a `major.minor` pair as the catalogue key string. -/
def minorStr (x y : Nat) : String :=
  toString x ++ "." ++ toString y

/-- Render a full `major.minor.patch` version string. -/
def verStr (x y z : Nat) : String :=
  minorStr x y ++ "." ++ toString z

/-- The source's private `contains`: linear scan for an equal string. -/
def contains (slice : List String) (value : String) : Bool :=
  slice.any (· == value)

/-- The source's `MergeVersions`: fold the variadic slices left to right,
appending each value not yet present. No sorting happens here. -/
def MergeVersions (n : List (List String)) : List String :=
  n.foldl
    (fun merged slice =>
      slice.foldl
        (fun m value => if contains m value then m else m ++ [value]) merged)
    []

/-- The source's `ExcludeVersions`: keep the versions absent from `exclude`,
dropping duplicates, then `sort.Strings` the result. -/
def ExcludeVersions (versions exclude : List String) : List String :=
  sortStrings
    (versions.foldl
      (fun included version =>
        if !contains exclude version && !contains included version then
          included ++ [version]
        else included)
      [])

/-- The source's `PhpMajorVersions`: the catalogue keys, sorted. -/
def PhpMajorVersions : List String :=
  sortStrings (phpVersionsList.map (·.1))

theorem contains_iff {l : List String} {v : String} :
    contains l v = true ↔ v ∈ l := by
  simp [contains, List.any_eq_true]

theorem mergeStep_mem {m : List String} {v x : String} :
    x ∈ (if contains m v then m else m ++ [v]) ↔ x ∈ m ∨ x = v := by
  by_cases hv : contains m v = true
  · rw [if_pos hv]
    constructor
    · exact Or.inl
    · rintro (h | rfl)
      · exact h
      · exact contains_iff.mp hv
  · rw [if_neg (by simpa using hv)]
    simp

theorem mergeInner_mem {slice : List String} {x : String} :
    ∀ m, x ∈ slice.foldl
        (fun m value => if contains m value then m else m ++ [value]) m ↔
      x ∈ m ∨ x ∈ slice := by
  induction slice with
  | nil => simp
  | cons v vs ih =>
    intro m
    rw [List.foldl_cons, ih, mergeStep_mem]
    simp only [List.mem_cons]
    tauto

theorem mergeInner_nodup {slice : List String} :
    ∀ m : List String, m.Nodup →
      (slice.foldl
        (fun m value => if contains m value then m else m ++ [value]) m).Nodup := by
  induction slice with
  | nil => intro m hm; simpa using hm
  | cons v vs ih =>
    intro m hm
    rw [List.foldl_cons]
    apply ih
    by_cases hv : contains m v = true
    · simpa [hv] using hm
    · have hvm : v ∉ m := fun h => hv (contains_iff.mpr h)
      simp only [hv, if_neg]
      simpa [List.nodup_append] using ⟨hm, hvm⟩

theorem mem_MergeVersions {n : List (List String)} {x : String} :
    x ∈ MergeVersions n ↔ ∃ l ∈ n, x ∈ l := by
  unfold MergeVersions
  suffices h : ∀ m : List String,
      x ∈ n.foldl
          (fun merged slice => slice.foldl
            (fun m value => if contains m value then m else m ++ [value]) merged) m ↔
        x ∈ m ∨ ∃ l ∈ n, x ∈ l by
    simpa using h []
  induction n with
  | nil => simp
  | cons s ss ih =>
    intro m
    rw [List.foldl_cons, ih, mergeInner_mem]
    simp only [List.mem_cons]
    constructor
    · rintro ((h | h) | ⟨l, hl, hx⟩)
      · exact Or.inl h
      · exact Or.inr ⟨s, Or.inl rfl, h⟩
      · exact Or.inr ⟨l, Or.inr hl, hx⟩
    · rintro (h | ⟨l, (rfl | hl), hx⟩)
      · exact Or.inl (Or.inl h)
      · exact Or.inl (Or.inr hx)
      · exact Or.inr ⟨l, hl, hx⟩

theorem MergeVersions_nodup (n : List (List String)) :
    (MergeVersions n).Nodup := by
  unfold MergeVersions
  suffices h : ∀ m : List String, m.Nodup →
      (n.foldl
        (fun merged slice => slice.foldl
          (fun m value => if contains m value then m else m ++ [value]) merged) m).Nodup by
    exact h [] List.nodup_nil
  induction n with
  | nil => intro m hm; simpa using hm
  | cons s ss ih =>
    intro m hm
    rw [List.foldl_cons]
    exact ih _ (mergeInner_nodup _ hm)

theorem excludeStep_mem {exclude included : List String} {v x : String} :
    x ∈ (if !contains exclude v && !contains included v then
          included ++ [v] else included) ↔
      x ∈ included ∨ (x = v ∧ v ∉ exclude) := by
  by_cases he : contains exclude v = true
  · rw [if_neg (by simp [he])]
    have hve := contains_iff.mp he
    constructor
    · exact Or.inl
    · rintro (h | ⟨rfl, hx⟩)
      · exact h
      · exact absurd hve hx
  · have hve : v ∉ exclude := fun h => he (contains_iff.mpr h)
    by_cases hi : contains included v = true
    · rw [if_neg (by simp [hi])]
      constructor
      · exact Or.inl
      · rintro (h | ⟨rfl, _⟩)
        · exact h
        · exact contains_iff.mp hi
    · rw [if_pos (by simp [he, hi])]
      simp only [List.mem_append, List.mem_singleton]
      constructor
      · rintro (h | rfl)
        · exact Or.inl h
        · exact Or.inr ⟨rfl, hve⟩
      · rintro (h | ⟨rfl, _⟩)
        · exact Or.inl h
        · exact Or.inr rfl

theorem excludeInner_mem {versions exclude : List String} {x : String} :
    ∀ included,
      x ∈ versions.foldl
          (fun included version =>
            if !contains exclude version && !contains included version then
              included ++ [version]
            else included) included ↔
        x ∈ included ∨ (x ∈ versions ∧ x ∉ exclude) := by
  induction versions with
  | nil => simp
  | cons v vs ih =>
    intro included
    rw [List.foldl_cons, ih, excludeStep_mem]
    simp only [List.mem_cons]
    constructor
    · rintro ((h | ⟨rfl, hv⟩) | ⟨hv, hx⟩)
      · exact Or.inl h
      · exact Or.inr ⟨Or.inl rfl, hv⟩
      · exact Or.inr ⟨Or.inr hv, hx⟩
    · rintro (h | ⟨(rfl | hv), hx⟩)
      · exact Or.inl (Or.inl h)
      · exact Or.inl (Or.inr ⟨rfl, hx⟩)
      · exact Or.inr ⟨hv, hx⟩

theorem excludeInner_nodup {versions exclude : List String} :
    ∀ included : List String, included.Nodup →
      (versions.foldl
        (fun included version =>
          if !contains exclude version && !contains included version then
            included ++ [version]
          else included) included).Nodup := by
  induction versions with
  | nil => intro i hi; simpa using hi
  | cons v vs ih =>
    intro i hi
    rw [List.foldl_cons]
    apply ih
    by_cases hi2 : contains i v = true
    · simpa [hi2] using hi
    · by_cases he : contains exclude v = true
      · simpa [he] using hi
      · have hvi : v ∉ i := fun h => hi2 (contains_iff.mpr h)
        simp only [he, hi2, Bool.not_false, Bool.and_self, if_pos]
        simpa [List.nodup_append] using ⟨hi, hvi⟩

theorem mem_ExcludeVersions {versions exclude : List String} {x : String} :
    x ∈ ExcludeVersions versions exclude ↔ x ∈ versions ∧ x ∉ exclude := by
  unfold ExcludeVersions
  rw [mem_sortStrings, excludeInner_mem]
  simp

theorem ExcludeVersions_nodup (versions exclude : List String) :
    (ExcludeVersions versions exclude).Nodup :=
  sortStrings_nodup (excludeInner_nodup _ List.nodup_nil)

theorem ExcludeVersions_strictSorted (versions exclude : List String) :
    (ExcludeVersions versions exclude).Pairwise SLt := by
  have hs : (ExcludeVersions versions exclude).Pairwise SLe :=
    sortStrings_sorted _
  have hn : (ExcludeVersions versions exclude).Pairwise (· ≠ ·) :=
    ExcludeVersions_nodup versions exclude
  exact (hs.and hn).imp fun h => SLt_of_SLe_of_ne h.1 h.2

end Phpcompat

namespace Phpcompat

open GoStr

/-- C1 counterexample: already for the sorted, duplicate-free singleton inputs
`["5.3"]` and `["5.2"]`, `MergeVersions` returns `["5.3", "5.2"]`, which is
not strictly ascending — the function de-duplicates but never sorts. -/
theorem mergeVersions_not_sorted_counterexample :
    MergeVersions [["5.3"], ["5.2"]] = ["5.3", "5.2"] ∧
    ¬ (MergeVersions [["5.3"], ["5.2"]]).Pairwise SLt := by decide

/-- C1 amended: the output of `MergeVersions` contains no duplicates (but is
in first-occurrence order, not sorted), and the output of `ExcludeVersions`
is strictly ascending with no duplicates. -/
theorem mergeVersions_nodup_excludeVersions_strict :
    (∀ n : List (List String), (MergeVersions n).Nodup) ∧
    (∀ versions exclude : List String,
      (ExcludeVersions versions exclude).Pairwise SLt ∧
      (ExcludeVersions versions exclude).Nodup) :=
  ⟨MergeVersions_nodup, fun v e =>
    ⟨ExcludeVersions_strictSorted v e, ExcludeVersions_nodup v e⟩⟩

/-- C2 counterexample: with the audit `breaks = ["7.3"]`, `warns = ["5.2"]`
(sorted, duplicate-free catalogue minors), `MergeVersions` of breaks, warns
and the derived compatible set starts with `"7.3"` and so differs as a list
from the sorted `PhpMajorVersions`. -/
theorem coverage_not_list_equal_counterexample :
    MergeVersions [["7.3"], ["5.2"],
        ExcludeVersions PhpMajorVersions (MergeVersions [["7.3"], ["5.2"]])] ≠
      PhpMajorVersions := by decide

/-- C2 amended: for breaks and warns drawn from the catalogue minors, merging
breaks, warns and the derived compatible set yields a permutation of
`PhpMajorVersions` (the same minors, generally in a different order). -/
theorem coverage_perm (breaks warns : List String)
    (hb : ∀ x ∈ breaks, x ∈ PhpMajorVersions)
    (hw : ∀ x ∈ warns, x ∈ PhpMajorVersions)
    (_hbs : breaks.Pairwise SLt) (_hws : warns.Pairwise SLt) :
    (MergeVersions [breaks, warns,
        ExcludeVersions PhpMajorVersions (MergeVersions [breaks, warns])]).Perm
      PhpMajorVersions := by
  have hkeys : PhpMajorVersions.Nodup := by decide
  apply (List.perm_ext_iff_of_nodup (MergeVersions_nodup _) hkeys).mpr
  intro a
  have hm : a ∈ MergeVersions [breaks, warns] ↔ a ∈ breaks ∨ a ∈ warns := by
    rw [mem_MergeVersions]; simp
  rw [mem_MergeVersions]
  simp only [List.mem_cons, List.not_mem_nil, or_false, exists_eq_or_imp,
    exists_eq_left]
  rw [mem_ExcludeVersions, hm]
  have hb' := hb a
  have hw' := hw a
  tauto

/-- C2 witness: the amended coverage theorem applied at the concrete audit
`breaks = ["7.3"]`, `warns = ["5.2"]`. -/
theorem coverage_perm_witness :
    (MergeVersions [["7.3"], ["5.2"],
        ExcludeVersions PhpMajorVersions (MergeVersions [["7.3"], ["5.2"]])]).Perm
      PhpMajorVersions :=
  coverage_perm ["7.3"] ["5.2"] (by decide) (by decide) (by decide) (by decide)

end Phpcompat

namespace Phpcompat

set_option maxRecDepth 10000 in
/-- C3: over every catalogue version `X.Y.Z` (catalogue minor `X.Y`, patch
`Z` up to the highest released one) other than the `5.2.0` floor,
`PreviousVersion` returns `X.Y.(Z-1)` when `Z > 0`, the catalogue max of
`X.(Y-1)` when `Z = 0 < Y`, and `5.6.40` for `7.0.0` (the only catalogue
minor with `Y = 0`); the floor inputs `"5.2"` and `"5.2.0"` both map to
`"5.2.0"`. -/
theorem previousVersion_catalogue_spec :
    (∀ p ∈ catalogueMaxPatch, ∀ z ≤ p.2,
      ¬(p.1 = (5, 2) ∧ z = 0) →
        (0 < z →
          PreviousVersion (verStr p.1.1 p.1.2 z) =
            some (verStr p.1.1 p.1.2 (z - 1))) ∧
        (z = 0 → 0 < p.1.2 →
          PreviousVersion (verStr p.1.1 p.1.2 z) =
            some (phpVersionsMax (minorStr p.1.1 (p.1.2 - 1)))) ∧
        (z = 0 → p.1.2 = 0 →
          PreviousVersion (verStr p.1.1 p.1.2 z) =
            some "5.6.40")) ∧
    PreviousVersion "5.2" = some "5.2.0" ∧
    PreviousVersion "5.2.0" = some "5.2.0" := by decide

/-- C3 witness: the catalogue theorem instantiated at `5.3.3`, whose
predecessor is `5.3.2`. -/
theorem previousVersion_catalogue_spec_witness :
    PreviousVersion (verStr 5 3 3) = some (verStr 5 3 2) :=
  (previousVersion_catalogue_spec.1 ((5, 3), 29) (by decide) 3 (by decide)
    (by decide)).1 (by decide)

/-- C4: on `"8.0.0"` — minor `0`, no cross-major boundary declared for major
`8` — the Go code indexes `maxPrev[2]` on the one-element slice produced by
splitting the missing catalogue entry `""`, an index-out-of-range panic
(`none` in this embedding), instead of reporting `compat.unknown_boundary`
as the specification requires. -/
theorem previousVersion_unknown_boundary_panics :
    PreviousVersion "8.0.0" = none := by decide

/-- C10: the sentinel `"all"` passes through `PreviousVersion` unchanged. -/
theorem previousVersion_all_sentinel :
    PreviousVersion "all" = some "all" := by decide

end Phpcompat

namespace Phpcompat

open GoStr

/-- A violation's PHP version range, the source's `CompatibilityRange`. -/
structure CompatibilityRange where
  Low : String
  High : String
  Reported : String
  MajorMinor : String

/-- A compatibility report entry, the source's `Compatibility`; the Go
`Breaks` and `Warns` fields are nullable pointers, embedded as `Option`. -/
structure Compatibility where
  Source : String
  Breaks : Option CompatibilityRange
  Warns : Option CompatibilityRange

/-- One phpcs finding, `tide.PhpcsFilesMessage`; the `tide` package is not
under src/, so only the fields the embedded functions read are modelled. -/
structure PhpcsFilesMessage where
  «Type» : String
  Source : String
  Message : String

/-- Modelled from the spec: `Parse` (the phpcompat parser file is not under
src/). Per the spec, a message whose sniff code is recognised yields a
report entry whose `breaks` XOR `warns` is populated matching the message's
`type`, with the version window extracted from the message text (spec
sections 4.4.1 and 3); an unrecognised code yields an error (`none` here).
Recognition and the textual window extraction are taken as parameters, so
every theorem below holds for all of them. -/
def Parse (recognise : PhpcsFilesMessage → Bool)
    (window : PhpcsFilesMessage → CompatibilityRange)
    (msg : PhpcsFilesMessage) : Option Compatibility :=
  if recognise msg then
    some { Source := msg.Source
           Breaks := if goToLower msg.«Type» = "error" then some (window msg) else none
           Warns := if goToLower msg.«Type» = "warning" then some (window msg) else none }
  else none

/-- Numeric component of a semantic version per `blang/semver`: digits only,
no leading zero unless the component is exactly `0`. -/
def validNum (ds : List Char) : Bool :=
  match ds with
  | [] => false
  | d :: rest =>
    d.isDigit && (d ≠ '0' || rest.isEmpty) && rest.all (·.isDigit)

/-- Parse a `major.minor.patch` string as `blang/semver` does (three numeric
dot-separated components); `none` models a parse error. -/
def semverParse (s : String) : Option (Nat × Nat × Nat) :=
  match splitCh '.' s.data with
  | [ma, mi, pa] =>
    if validNum ma && validNum mi && validNum pa then
      some ((digitsVal ma).getD 0, (digitsVal mi).getD 0, (digitsVal pa).getD 0)
    else none
  | _ => none

/-- Semantic-version comparison on parsed triples (no prerelease tags occur
in the catalogue). -/
def verLe (a b : Nat × Nat × Nat) : Bool :=
  if a.1 < b.1 then true
  else if b.1 < a.1 then false
  else if a.2.1 < b.2.1 then true
  else if b.2.1 < a.2.1 then false
  else Nat.ble a.2.2 b.2.2

/-- Evaluation of the range `">=low <=high"` at `v`. -/
def rangeContains (lo hi v : Nat × Nat × Nat) : Bool :=
  verLe lo v && verLe v hi

/-- Range-to-minors computation shared verbatim by `BreaksVersions` and
`NonBreakingVersions` in the source: build the range `">=low <=high"` (the
fixed `">=5.2.0 <=PhpLatest"` when the reported version is `"all"`) and keep
the catalogue minors whose max patch it contains, sorted. The `none` on an
unparseable bound models the Go panic of calling the nil `failRange` after
`semver.ParseRange` fails. -/
def versionsInRange (vr : CompatibilityRange) : Option (List String) :=
  let bounds :=
    if vr.Reported = "all" then ("5.2.0", PhpLatest) else (vr.Low, vr.High)
  match semverParse bounds.1, semverParse bounds.2 with
  | some lo, some hi =>
    some (sortStrings (phpVersionsList.filterMap
      (fun q =>
        match semverParse q.2 with
        | some mv => if rangeContains lo hi mv then some q.1 else none
        | none => none)))
  | _, _ => none

/-- The source's `BreaksVersions`: `nil` (`none`) when `Parse` fails or the
message type is not `error`; otherwise the sorted catalogue minors whose max
patch falls in the failing range. The inner `none` on `compat.Breaks` models
the Go nil-pointer dereference, unreachable for `Parse` outputs. -/
def BreaksVersions (recognise : PhpcsFilesMessage → Bool)
    (window : PhpcsFilesMessage → CompatibilityRange)
    (message : PhpcsFilesMessage) : Option (List String) :=
  match Parse recognise window message with
  | none => none
  | some compat =>
    if goToLower message.«Type» ≠ "error" then none
    else
      match compat.Breaks with
      | none => none
      | some br => versionsInRange br

/-- The source's `NonBreakingVersions`, the `warning` counterpart of
`BreaksVersions` over `compat.Warns`. -/
def NonBreakingVersions (recognise : PhpcsFilesMessage → Bool)
    (window : PhpcsFilesMessage → CompatibilityRange)
    (message : PhpcsFilesMessage) : Option (List String) :=
  match Parse recognise window message with
  | none => none
  | some compat =>
    if goToLower message.«Type» ≠ "warning" then none
    else
      match compat.Warns with
      | none => none
      | some wr => versionsInRange wr

/-- A window whose bounds the range parser accepts: either the degenerate
`"all"` report (which replaces the bounds by constants) or parseable low and
high bounds. Spec windows always satisfy this. -/
def WellFormedRange (vr : CompatibilityRange) : Prop :=
  vr.Reported = "all" ∨
    ((semverParse vr.Low).isSome ∧ (semverParse vr.High).isSome)

theorem versionsInRange_ne_none {vr : CompatibilityRange}
    (hwf : WellFormedRange vr) : versionsInRange vr ≠ none := by
  unfold versionsInRange
  by_cases hall : vr.Reported = "all"
  · rw [if_pos hall]
    decide
  · obtain ⟨hlo, hhi⟩ := hwf.resolve_left hall
    obtain ⟨lo, hlo⟩ := Option.isSome_iff_exists.mp hlo
    obtain ⟨hi, hhi⟩ := Option.isSome_iff_exists.mp hhi
    rw [if_neg hall]
    simp only [hlo, hhi]
    simp

/-- C8: for every message whose rule the parser recognises and whose window
is well formed, an `error`-typed message makes `BreaksVersions` non-nil and
`NonBreakingVersions` nil, a `warning`-typed message the reverse; and for no
message at all are both non-nil. Holds for every recognition predicate and
window extraction. -/
theorem breaks_warns_exclusivity
    (recognise : PhpcsFilesMessage → Bool)
    (window : PhpcsFilesMessage → CompatibilityRange)
    (msg : PhpcsFilesMessage)
    (hwf : WellFormedRange (window msg)) :
    (Parse recognise window msg ≠ none →
      (goToLower msg.«Type» = "error" →
        BreaksVersions recognise window msg ≠ none ∧
        NonBreakingVersions recognise window msg = none) ∧
      (goToLower msg.«Type» = "warning" →
        NonBreakingVersions recognise window msg ≠ none ∧
        BreaksVersions recognise window msg = none)) ∧
    ¬(BreaksVersions recognise window msg ≠ none ∧
      NonBreakingVersions recognise window msg ≠ none) := by
  constructor
  · intro hparse
    have hr : recognise msg = true := by
      by_contra h
      exact hparse (by simp [Parse, h])
    constructor
    · intro he
      have hw : goToLower msg.«Type» ≠ "warning" := by rw [he]; decide
      constructor
      · have hred : BreaksVersions recognise window msg =
            versionsInRange (window msg) := by
          simp [BreaksVersions, Parse, hr, he]
        rw [hred]
        exact versionsInRange_ne_none hwf
      · simp [NonBreakingVersions, Parse, hr, hw]
    · intro he
      have hw : goToLower msg.«Type» ≠ "error" := by rw [he]; decide
      constructor
      · have hred : NonBreakingVersions recognise window msg =
            versionsInRange (window msg) := by
          simp [NonBreakingVersions, Parse, hr, he]
        rw [hred]
        exact versionsInRange_ne_none hwf
      · simp [BreaksVersions, Parse, hr, hw]
  · rintro ⟨hb, hn⟩
    by_cases he : goToLower msg.«Type» = "warning"
    · apply hb
      cases hp : Parse recognise window msg with
      | none => simp [BreaksVersions, hp]
      | some c =>
        have hw : goToLower msg.«Type» ≠ "error" := by rw [he]; decide
        simp [BreaksVersions, hp, hw]
    · apply hn
      cases hp : Parse recognise window msg with
      | none => simp [NonBreakingVersions, hp]
      | some c => simp [NonBreakingVersions, hp, he]

/-- C8 witness: the exclusivity theorem instantiated at the concrete
`ERROR`-typed finding for the `5.2` namespace-keyword window, with
recognition always succeeding. -/
theorem breaks_warns_exclusivity_witness :
    (Parse (fun _ => true) (fun _ => ⟨"5.2.0", "5.2.17", "5.2", "5.2"⟩)
        ⟨"ERROR", "PHPCompatibility.PHP.NewKeywords.t_namespaceFound",
          "namespace keyword is not present in PHP version 5.2 or earlier"⟩ ≠
        none →
      (goToLower "ERROR" = "error" →
        BreaksVersions (fun _ => true) (fun _ => ⟨"5.2.0", "5.2.17", "5.2", "5.2"⟩)
          ⟨"ERROR", "PHPCompatibility.PHP.NewKeywords.t_namespaceFound",
            "namespace keyword is not present in PHP version 5.2 or earlier"⟩ ≠
          none ∧
        NonBreakingVersions (fun _ => true)
          (fun _ => ⟨"5.2.0", "5.2.17", "5.2", "5.2"⟩)
          ⟨"ERROR", "PHPCompatibility.PHP.NewKeywords.t_namespaceFound",
            "namespace keyword is not present in PHP version 5.2 or earlier"⟩ =
          none) ∧
      (goToLower "ERROR" = "warning" →
        NonBreakingVersions (fun _ => true)
          (fun _ => ⟨"5.2.0", "5.2.17", "5.2", "5.2"⟩)
          ⟨"ERROR", "PHPCompatibility.PHP.NewKeywords.t_namespaceFound",
            "namespace keyword is not present in PHP version 5.2 or earlier"⟩ ≠
          none ∧
        BreaksVersions (fun _ => true) (fun _ => ⟨"5.2.0", "5.2.17", "5.2", "5.2"⟩)
          ⟨"ERROR", "PHPCompatibility.PHP.NewKeywords.t_namespaceFound",
            "namespace keyword is not present in PHP version 5.2 or earlier"⟩ =
          none)) ∧
    ¬(BreaksVersions (fun _ => true) (fun _ => ⟨"5.2.0", "5.2.17", "5.2", "5.2"⟩)
        ⟨"ERROR", "PHPCompatibility.PHP.NewKeywords.t_namespaceFound",
          "namespace keyword is not present in PHP version 5.2 or earlier"⟩ ≠
        none ∧
      NonBreakingVersions (fun _ => true)
        (fun _ => ⟨"5.2.0", "5.2.17", "5.2", "5.2"⟩)
        ⟨"ERROR", "PHPCompatibility.PHP.NewKeywords.t_namespaceFound",
          "namespace keyword is not present in PHP version 5.2 or earlier"⟩ ≠
        none) :=
  breaks_warns_exclusivity (fun _ => true)
    (fun _ => ⟨"5.2.0", "5.2.17", "5.2", "5.2"⟩)
    ⟨"ERROR", "PHPCompatibility.PHP.NewKeywords.t_namespaceFound",
      "namespace keyword is not present in PHP version 5.2 or earlier"⟩
    (Or.inr (by decide))

end Phpcompat

namespace Zip

open GoStr

/-- One archive entry as `unzip` sees it: the stored path and whether the
entry is a directory. -/
structure ZipEntry where
  name : String
  isDir : Bool
deriving DecidableEq

/-- Body of the root-path loop in the source's `unzip`: keep the shorter
path, where an empty accumulator always loses
(`len(path) < len(rootPath) || rootPath == ""`). -/
def shortestStep (rootPath p : String) : String :=
  if goLen p < goLen rootPath ∨ rootPath = "" then p else rootPath

/-- The first loop of the source's `unzip`: fold over all entries, skipping
non-directories, keeping the shortest directory path seen so far (first
wins on ties), starting from `""`. -/
def unzipRootPath (entries : List ZipEntry) : String :=
  entries.foldl
    (fun rootPath e => if e.isDir then shortestStep rootPath e.name else rootPath)
    ""

/-- The relative path the second loop of `unzip` gives each non-directory
entry before joining it onto the destination:
`strings.TrimPrefix(file.Name, rootPath)`. -/
def unzipRelativePaths (entries : List ZipEntry) : List String :=
  (entries.filter (fun e => !e.isDir)).map
    (fun e => goTrimLeft e.name (unzipRootPath entries))

/-- Directory entries that are ancestors (path-string ancestors, hence
string prefixes) of every non-directory entry — the candidates the
specification's root prefix is chosen from. -/
def specCandidateNames (entries : List ZipEntry) : List String :=
  ((entries.filter (fun e => e.isDir)).filter
    (fun d => (entries.filter (fun e => !e.isDir)).all
      (fun f => d.name.data.isPrefixOf f.name.data))).map (fun d => d.name)

/-- Root prefix as the specification words it, for the refinement
comparison: the shortest directory path that is an ancestor of every
non-directory entry (`""` when no directory entry qualifies; the same
shortest-first-wins tie choice as the code). -/
def specRootPrefix (entries : List ZipEntry) : String :=
  (specCandidateNames entries).foldl shortestStep ""

/-- Relative paths as the specification words them: every non-directory
entry with the spec's root prefix stripped. -/
def specRelativePaths (entries : List ZipEntry) : List String :=
  (entries.filter (fun e => !e.isDir)).map
    (fun e => goTrimLeft e.name (specRootPrefix entries))

theorem shortestStep_def (a p : String) :
    shortestStep a p = if goLen p < goLen a ∨ a = "" then p else a := rfl

theorem pfx_exists {r s : List Char} (h : r.isPrefixOf s = true) :
    ∃ t, s = r ++ t := by
  obtain ⟨t, ht⟩ := List.isPrefixOf_iff_prefix.mp h
  exact ⟨t, ht.symm⟩

theorem goLen_le_of_pfx {r s : String}
    (h : r.data.isPrefixOf s.data = true) : goLen r ≤ goLen s := by
  obtain ⟨t, ht⟩ := pfx_exists h
  unfold goLen
  rw [ht, List.map_append, List.sum_append]
  exact Nat.le_add_right _ _

theorem utf8_sum_eq_zero {t : List Char}
    (h : (t.map (fun c => c.utf8Size)).sum = 0) : t = [] := by
  cases t with
  | nil => rfl
  | cons c cs =>
    exfalso
    have hc := Char.utf8Size_pos c
    simp [List.sum_cons] at h
    omega

theorem eq_of_pfx_of_goLen_le {r s : String}
    (h : r.data.isPrefixOf s.data = true) (hl : goLen s ≤ goLen r) : s = r := by
  obtain ⟨t, ht⟩ := pfx_exists h
  have hsum : goLen s = goLen r + (t.map (fun c => c.utf8Size)).sum := by
    unfold goLen
    rw [ht, List.map_append, List.sum_append]
  have ht0 : t = [] := utf8_sum_eq_zero (by omega)
  apply str_ext
  rw [ht, ht0, List.append_nil]

theorem ne_empty_of_pfx {r s : String}
    (h : r.data.isPrefixOf s.data = true) (hr0 : r ≠ "") : s ≠ "" := by
  intro hs
  obtain ⟨t, ht⟩ := pfx_exists h
  rw [hs] at ht
  have : r.data = [] := (List.append_eq_nil.mp ht.symm).1
  exact hr0 (str_ext this)

theorem unzipRootPath_eq (entries : List ZipEntry) :
    unzipRootPath entries =
      ((entries.filter (fun e => e.isDir)).map (fun e => e.name)).foldl
        shortestStep "" := by
  unfold unzipRootPath
  suffices h : ∀ acc : String,
      entries.foldl
        (fun rootPath e =>
          if e.isDir then shortestStep rootPath e.name else rootPath) acc =
      ((entries.filter (fun e => e.isDir)).map (fun e => e.name)).foldl
        shortestStep acc from h ""
  induction entries with
  | nil => intro acc; rfl
  | cons e es ih =>
    intro acc
    by_cases hd : e.isDir <;> simp [hd, ih]

theorem shortestFold_inv {r : String} (hr0 : r ≠ "") :
    ∀ (names : List String) (acc : String),
      (∀ n ∈ names, r.data.isPrefixOf n.data = true) →
      (acc = "" ∨ (r.data.isPrefixOf acc.data = true ∧ acc ≠ "")) →
      (names.foldl shortestStep acc = "" ∨
        (r.data.isPrefixOf (names.foldl shortestStep acc).data = true ∧
          names.foldl shortestStep acc ≠ ""))
  | [], acc, _, hacc => hacc
  | n :: ns, acc, hpre, hacc => by
    rw [List.foldl_cons]
    apply shortestFold_inv hr0 ns _
      (fun m hm => hpre m (List.mem_cons_of_mem _ hm))
    have hn := hpre n (List.mem_cons_self _ _)
    unfold shortestStep
    by_cases hc : goLen n < goLen acc ∨ acc = ""
    · rw [if_pos hc]
      exact Or.inr ⟨hn, ne_empty_of_pfx hn hr0⟩
    · rw [if_neg hc]
      exact hacc

theorem shortestFold_stay {r : String} (hr0 : r ≠ "") :
    ∀ ns : List String, (∀ n ∈ ns, r.data.isPrefixOf n.data = true) →
      ns.foldl shortestStep r = r
  | [], _ => rfl
  | n :: ns, h => by
    rw [List.foldl_cons]
    have hle : goLen r ≤ goLen n := goLen_le_of_pfx (h n (List.mem_cons_self _ _))
    have hstep : shortestStep r n = r := by
      unfold shortestStep
      rw [if_neg]
      rintro (h1 | h2)
      · omega
      · exact hr0 h2
    rw [hstep]
    exact shortestFold_stay hr0 ns (fun m hm => h m (List.mem_cons_of_mem _ hm))

theorem shortestFold_eq {r : String} (hr0 : r ≠ "") (names : List String)
    (hpre : ∀ n ∈ names, r.data.isPrefixOf n.data = true) (hm : r ∈ names) :
    names.foldl shortestStep "" = r := by
  obtain ⟨l₁, l₂, rfl⟩ := List.append_of_mem hm
  rw [List.foldl_append, List.foldl_cons]
  have hpre1 : ∀ n ∈ l₁, r.data.isPrefixOf n.data = true :=
    fun n hn => hpre n (by simp [hn])
  have hpre2 : ∀ n ∈ l₂, r.data.isPrefixOf n.data = true :=
    fun n hn => hpre n (by simp [hn])
  have hacc := shortestFold_inv hr0 l₁ "" hpre1 (Or.inl rfl)
  rcases hacc with hA | ⟨hpA, hAne⟩
  · rw [hA]
    have : shortestStep "" r = r := by
      unfold shortestStep
      rw [if_pos (Or.inr rfl)]
    rw [this]
    exact shortestFold_stay hr0 l₂ hpre2
  · by_cases hlt : goLen r < goLen (l₁.foldl shortestStep "") ∨
        l₁.foldl shortestStep "" = ""
    · have : shortestStep (l₁.foldl shortestStep "") r = r := by
        rw [shortestStep_def, if_pos hlt]
      rw [this]
      exact shortestFold_stay hr0 l₂ hpre2
    · have hle : goLen (l₁.foldl shortestStep "") ≤ goLen r := by
        rcases Nat.lt_or_ge (goLen r) (goLen (l₁.foldl shortestStep "")) with h | h
        · exact absurd (Or.inl h) hlt
        · exact h
      have hAr : l₁.foldl shortestStep "" = r := eq_of_pfx_of_goLen_le hpA hle
      have : shortestStep (l₁.foldl shortestStep "") r = r := by
        rw [shortestStep_def, if_neg hlt, hAr]
      rw [this]
      exact shortestFold_stay hr0 l₂ hpre2

/-- C9 counterexample: in the archive with directories `b/` and `aa/` and
files `aa/f` and `b/g`, neither directory is an ancestor of every file, so
the spec's root prefix is empty; the code nevertheless strips the shortest
directory entry `b/`, writing `b/g` to `g` while the spec leaves both file
paths intact. -/
theorem unzip_rootPath_counterexample :
    unzipRootPath
        [⟨"b/", true⟩, ⟨"aa/", true⟩, ⟨"aa/f", false⟩, ⟨"b/g", false⟩] = "b/" ∧
    specRootPrefix
        [⟨"b/", true⟩, ⟨"aa/", true⟩, ⟨"aa/f", false⟩, ⟨"b/g", false⟩] = "" ∧
    unzipRelativePaths
        [⟨"b/", true⟩, ⟨"aa/", true⟩, ⟨"aa/f", false⟩, ⟨"b/g", false⟩] =
      ["aa/f", "g"] ∧
    specRelativePaths
        [⟨"b/", true⟩, ⟨"aa/", true⟩, ⟨"aa/f", false⟩, ⟨"b/g", false⟩] =
      ["aa/f", "b/g"] ∧
    unzipRelativePaths
        [⟨"b/", true⟩, ⟨"aa/", true⟩, ⟨"aa/f", false⟩, ⟨"b/g", false⟩] ≠
      specRelativePaths
        [⟨"b/", true⟩, ⟨"aa/", true⟩, ⟨"aa/f", false⟩, ⟨"b/g", false⟩] := by
  decide

/-- C9 amended: `unzip` strips the shortest directory entry of the archive,
which need not be an ancestor of every file; for single-root archives — some
non-empty directory entry `r` is a prefix of every entry — the code's root
path and the spec's root prefix are both `r` and every non-directory entry
is written with exactly that prefix removed. -/
theorem unzip_rootPath_single_root (entries : List ZipEntry) (r : String)
    (hmem : ZipEntry.mk r true ∈ entries) (hr0 : r ≠ "")
    (hall : ∀ e ∈ entries, r.data.isPrefixOf e.name.data = true) :
    unzipRootPath entries = r ∧ specRootPrefix entries = r ∧
    unzipRelativePaths entries = specRelativePaths entries := by
  have hdirnames : ∀ n ∈ (entries.filter (fun e => e.isDir)).map
      (fun e => e.name), r.data.isPrefixOf n.data = true := by
    intro n hn
    simp only [List.mem_map, List.mem_filter] at hn
    obtain ⟨e, ⟨he, _⟩, rfl⟩ := hn
    exact hall e he
  have hrmem : r ∈ (entries.filter (fun e => e.isDir)).map (fun e => e.name) :=
    List.mem_map.mpr ⟨⟨r, true⟩, List.mem_filter.mpr ⟨hmem, rfl⟩, rfl⟩
  have h1 : unzipRootPath entries = r := by
    rw [unzipRootPath_eq]
    exact shortestFold_eq hr0 _ hdirnames hrmem
  have h2 : specRootPrefix entries = r := by
    unfold specRootPrefix
    apply shortestFold_eq hr0
    · intro n hn
      simp only [specCandidateNames, List.mem_map, List.mem_filter] at hn
      obtain ⟨e, ⟨⟨he, _⟩, _⟩, rfl⟩ := hn
      exact hall e he
    · apply List.mem_map.mpr
      refine ⟨⟨r, true⟩, List.mem_filter.mpr ⟨List.mem_filter.mpr ⟨hmem, rfl⟩, ?_⟩, rfl⟩
      apply List.all_eq_true.mpr
      intro f hf
      exact hall f (List.mem_filter.mp hf).1
  refine ⟨h1, h2, ?_⟩
  unfold unzipRelativePaths specRelativePaths
  rw [h1, h2]

/-- C9 witness: the single-root theorem instantiated at an archive rooted in
`root/`. -/
theorem unzip_rootPath_single_root_witness :
    unzipRootPath [⟨"root/", true⟩, ⟨"root/sub/", true⟩,
        ⟨"root/a.php", false⟩, ⟨"root/sub/b.php", false⟩] = "root/" ∧
    specRootPrefix [⟨"root/", true⟩, ⟨"root/sub/", true⟩,
        ⟨"root/a.php", false⟩, ⟨"root/sub/b.php", false⟩] = "root/" ∧
    unzipRelativePaths [⟨"root/", true⟩, ⟨"root/sub/", true⟩,
        ⟨"root/a.php", false⟩, ⟨"root/sub/b.php", false⟩] =
      specRelativePaths [⟨"root/", true⟩, ⟨"root/sub/", true⟩,
        ⟨"root/a.php", false⟩, ⟨"root/sub/b.php", false⟩] :=
  unzip_rootPath_single_root
    [⟨"root/", true⟩, ⟨"root/sub/", true⟩,
      ⟨"root/a.php", false⟩, ⟨"root/sub/b.php", false⟩]
    "root/" (by decide) (by decide) (by decide)

end Zip

namespace Sha256

/-- Reduction to a 32-bit word. -/
def w32 (n : Nat) : Nat :=
  n % 4294967296

/-- Right rotation of a 32-bit word by `k` bits. -/
def rotr (k x : Nat) : Nat :=
  w32 ((x >>> k) ||| (x <<< (32 - k)))

/-- The 64 SHA-256 round constants. -/
def K : List Nat :=
  [
   1116352408, 1899447441, 3049323471, 3921009573,
   961987163, 1508970993, 2453635748, 2870763221,
   3624381080, 310598401, 607225278, 1426881987,
   1925078388, 2162078206, 2614888103, 3248222580,
   3835390401, 4022224774, 264347078, 604807628,
   770255983, 1249150122, 1555081692, 1996064986,
   2554220882, 2821834349, 2952996808, 3210313671,
   3336571891, 3584528711, 113926993, 338241895,
   666307205, 773529912, 1294757372, 1396182291,
   1695183700, 1986661051, 2177026350, 2456956037,
   2730485921, 2820302411, 3259730800, 3345764771,
   3516065817, 3600352804, 4094571909, 275423344,
   430227734, 506948616, 659060556, 883997877,
   958139571, 1322822218, 1537002063, 1747873779,
   1955562222, 2024104815, 2227730452, 2361852424,
   2428436474, 2756734187, 3204031479, 3329325298]

/-- Running hash state, the eight working words of SHA-256. -/
structure Hash8 where
  a : Nat
  b : Nat
  c : Nat
  d : Nat
  e : Nat
  f : Nat
  g : Nat
  h : Nat
deriving DecidableEq

/-- SHA-256 initial hash value. -/
def initH : Hash8 :=
  ⟨1779033703, 3144134277, 1013904242, 2773480762,
   1359893119, 2600822924, 528734635, 1541459225⟩

/-- Message-schedule sigma-0. -/
def smallSigma0 (x : Nat) : Nat :=
  rotr 7 x ^^^ rotr 18 x ^^^ (x >>> 3)

/-- Message-schedule sigma-1. -/
def smallSigma1 (x : Nat) : Nat :=
  rotr 17 x ^^^ rotr 19 x ^^^ (x >>> 10)

/-- Round-function Sigma-0. -/
def bigSigma0 (x : Nat) : Nat :=
  rotr 2 x ^^^ rotr 13 x ^^^ rotr 22 x

/-- Round-function Sigma-1. -/
def bigSigma1 (x : Nat) : Nat :=
  rotr 6 x ^^^ rotr 11 x ^^^ rotr 25 x

/-- Extend a 16-word block to the 64-word message schedule. -/
def schedule (w16 : List Nat) : List Nat :=
  (List.range 48).foldl
    (fun W _ =>
      let n := W.length
      W ++ [w32 (smallSigma1 (W.getD (n - 2) 0) + W.getD (n - 7) 0 +
        smallSigma0 (W.getD (n - 15) 0) + W.getD (n - 16) 0)])
    w16

/-- One compression round; `kw` is the round constant plus schedule word. -/
def round (st : Hash8) (kw : Nat) : Hash8 :=
  let s1 := bigSigma1 st.e
  let ch := (st.e &&& st.f) ^^^ ((st.e ^^^ 4294967295) &&& st.g)
  let temp1 := w32 (st.h + s1 + ch + kw)
  let s0 := bigSigma0 st.a
  let maj := (st.a &&& st.b) ^^^ (st.a &&& st.c) ^^^ (st.b &&& st.c)
  let temp2 := w32 (s0 + maj)
  ⟨w32 (temp1 + temp2), st.a, st.b, st.c, w32 (st.d + temp1), st.e, st.f, st.g⟩

/-- Compress one 16-word block into the running hash. -/
def compress (H : Hash8) (w16 : List Nat) : Hash8 :=
  let kws := List.zipWith (fun k w => w32 (k + w)) K (schedule w16)
  let st := kws.foldl round H
  ⟨w32 (H.a + st.a), w32 (H.b + st.b), w32 (H.c + st.c), w32 (H.d + st.d),
   w32 (H.e + st.e), w32 (H.f + st.f), w32 (H.g + st.g), w32 (H.h + st.h)⟩

/-- Fold the compression over the padded word stream, 16 words at a time. -/
def processBlocks (H : Hash8) : List Nat → Hash8
  | w0 :: w1 :: w2 :: w3 :: w4 :: w5 :: w6 :: w7 ::
    w8 :: w9 :: w10 :: w11 :: w12 :: w13 :: w14 :: w15 :: rest =>
    processBlocks
      (compress H [w0, w1, w2, w3, w4, w5, w6, w7, w8, w9, w10, w11, w12, w13, w14, w15])
      rest
  | _ => H

/-- Big-endian bytes of a 64-bit value. -/
def be64 (n : Nat) : List Nat :=
  [n >>> 56 % 256, n >>> 48 % 256, n >>> 40 % 256, n >>> 32 % 256,
   n >>> 24 % 256, n >>> 16 % 256, n >>> 8 % 256, n % 256]

/-- Big-endian bytes of a 32-bit word. -/
def be32 (n : Nat) : List Nat :=
  [n >>> 24 % 256, n >>> 16 % 256, n >>> 8 % 256, n % 256]

/-- SHA-256 padding: `0x80`, zeros to 56 mod 64 bytes, then the bit length. -/
def pad (msg : List Nat) : List Nat :=
  msg ++ 128 :: List.replicate ((120 - (msg.length + 1) % 64) % 64) 0 ++
    be64 (8 * msg.length)

/-- Group bytes into big-endian 32-bit words. -/
def toWordsBE : List Nat → List Nat
  | b0 :: b1 :: b2 :: b3 :: rest =>
    (((b0 * 256 + b1) * 256 + b2) * 256 + b3) :: toWordsBE rest
  | _ => []

/-- SHA-256 of a byte sequence, as the 32 digest bytes. -/
def sha256 (msg : List Nat) : List Nat :=
  let fin := processBlocks initH (toWordsBE (pad msg))
  be32 fin.a ++ be32 fin.b ++ be32 fin.c ++ be32 fin.d ++
    be32 fin.e ++ be32 fin.f ++ be32 fin.g ++ be32 fin.h

/-- Lowercase hex digit. -/
def hexChar (n : Nat) : Char :=
  if n < 10 then Char.ofNat (48 + n) else Char.ofNat (87 + n)

/-- Two lowercase hex digits of a byte, Go's `%x` per byte. -/
def hexByte (b : Nat) : List Char :=
  [hexChar (b / 16), hexChar (b % 16)]

/-- Lowercase hex encoding of a byte sequence, Go's `fmt.Sprintf("%x", _)`. -/
def hexStr (bytes : List Nat) : String :=
  String.mk (bytes.foldr (fun b acc => hexByte b ++ acc) [])

/-- UTF-8 bytes of one character. -/
def charUtf8 (c : Char) : List Nat :=
  let n := c.toNat
  if n < 128 then [n]
  else if n < 2048 then [192 + n / 64, 128 + n % 64]
  else if n < 65536 then [224 + n / 4096, 128 + (n / 64) % 64, 128 + n % 64]
  else [240 + n / 262144, 128 + (n / 4096) % 64, 128 + (n / 64) % 64, 128 + n % 64]

/-- UTF-8 bytes of a string, the byte sequence Go hashes. -/
def utf8Bytes (s : String) : List Nat :=
  s.data.foldr (fun c acc => charUtf8 c ++ acc) []

end Sha256

-- Known-answer checks: the embedded SHA-256 agrees with the FIPS 180-4
-- vector for the empty message and with the digest of the bytes `null`.
example :
    Sha256.hexStr (Sha256.sha256 (Sha256.utf8Bytes "")) =
      "e3b0c44298fc1c149afbf4c8996fb92427ae41e4649b934ca495991b7852b855" := by
  decide
example :
    Sha256.hexStr (Sha256.sha256 (Sha256.utf8Bytes "null")) =
      "74234e98afe7498fb5daf1f36ac2d78acc339464f950703b8c019892f982b90b" := by
  decide

namespace Zip

open GoStr

/-- One escaped character of Go's default `encoding/json` string encoder:
quote, backslash, newline, carriage return and tab get two-character
escapes, other control characters and the HTML-sensitive `<`, `>`, `&` (and
U+2028/U+2029) get `\uXXXX` escapes, everything else passes through. -/
def goJsonEscapeChar (c : Char) : List Char :=
  if c = '"' then ['\\', '"']
  else if c = '\\' then ['\\', '\\']
  else if c = '\n' then ['\\', 'n']
  else if c = '\r' then ['\\', 'r']
  else if c = '\t' then ['\\', 't']
  else if c = '<' then ['\\', 'u', '0', '0', '3', 'c']
  else if c = '>' then ['\\', 'u', '0', '0', '3', 'e']
  else if c = '&' then ['\\', 'u', '0', '0', '2', '6']
  else if c.toNat < 32 then
    ['\\', 'u', '0', '0', Sha256.hexChar (c.toNat / 16), Sha256.hexChar (c.toNat % 16)]
  else if c.toNat = 8232 then ['\\', 'u', '2', '0', '2', '8']
  else if c.toNat = 8233 then ['\\', 'u', '2', '0', '2', '9']
  else [c]

/-- A JSON string literal for `s`, Go's encoder. -/
def goJsonQuote (s : String) : List Char :=
  '"' :: s.data.foldr (fun c acc => goJsonEscapeChar c ++ acc) ['"']

/-- The compact JSON array serialisation of a list of strings — the byte
shape the specification's checksum paragraph describes. -/
def jsonArrayCompact (l : List String) : String :=
  String.mk ('[' :: List.intercalate [','] (l.map goJsonQuote) ++ [']'])

/-- Go's `json.Marshal` on the `[]string` slice this package hashes. The
digest slice of `unzip` is the nil slice exactly when no regular file was
extracted, and `json.Marshal` serialises a nil slice as `null`, not `[]`;
a non-empty slice marshals to the compact array form. -/
def goJsonMarshalStrings (l : List String) : String :=
  if l.isEmpty then "null" else jsonArrayCompact l

/-- The source's `combinedChecksum`: sort the digests in place, marshal the
slice to JSON, and hex-encode the SHA-256 of those bytes. -/
def combinedChecksum (sums : List String) : String :=
  Sha256.hexStr (Sha256.sha256 (Sha256.utf8Bytes
    (goJsonMarshalStrings (sortStrings sums))))

/-- The project checksum as the specification words it: sort the hex digests
ascending, serialise the sorted list as a compact JSON array, and hex-encode
the SHA-256 of that byte sequence. -/
def specProjectChecksum (digests : List String) : String :=
  Sha256.hexStr (Sha256.sha256 (Sha256.utf8Bytes
    (jsonArrayCompact (sortStrings digests))))

/-- C5 counterexample: on the empty digest list the code hashes `null` (the
JSON form of the nil slice) while the spec's serialisation is the compact
array `[]`, so the two checksums differ. -/
theorem combinedChecksum_empty_counterexample :
    combinedChecksum [] ≠ specProjectChecksum [] ∧
    combinedChecksum [] =
      "74234e98afe7498fb5daf1f36ac2d78acc339464f950703b8c019892f982b90b" ∧
    specProjectChecksum [] =
      "4f53cda18c2baa0c0354bb5f9a3ecbe5ed12ab4d8e11ba873c2f11161202b945" := by
  decide

/-- C5 amended: for every non-empty digest list `combinedChecksum` is
exactly the spec's checksum of the ascending-sorted list, and for every
permutation of a digest list (empty or not) the checksum is identical. -/
theorem combinedChecksum_spec_agreement :
    (∀ l : List String, l ≠ [] → combinedChecksum l = specProjectChecksum l) ∧
    (∀ l₁ l₂ : List String, l₁.Perm l₂ →
      combinedChecksum l₁ = combinedChecksum l₂) := by
  constructor
  · intro l hl
    unfold combinedChecksum specProjectChecksum goJsonMarshalStrings
    rw [if_neg]
    simp only [List.isEmpty_iff]
    exact sortStrings_ne_nil hl
  · intro l₁ l₂ h
    unfold combinedChecksum
    rw [sortStrings_eq_of_perm h]

/-- C5 witness: the agreement theorem applied to the two-digest list
`["bb", "aa"]` and its permutation. -/
theorem combinedChecksum_spec_agreement_witness :
    combinedChecksum ["bb", "aa"] = specProjectChecksum ["bb", "aa"] ∧
    combinedChecksum ["bb", "aa"] = combinedChecksum ["aa", "bb"] :=
  ⟨combinedChecksum_spec_agreement.1 ["bb", "aa"] (by decide),
   combinedChecksum_spec_agreement.2 ["bb", "aa"] ["aa", "bb"] (by decide)⟩

end Zip

-- Known-answer check: the combined checksum of two digests agrees with the
-- value computed by an independent implementation of the Go pipeline.
example :
    Zip.combinedChecksum ["bb", "aa"] =
      "c7ec6d9bb93d526abb5919832ad473027244d476d593175329bfa9d66a1411b0" := by
  decide

namespace Zip

theorem combinedChecksum_ne_empty (cs : List String) :
    combinedChecksum cs ≠ "" := by
  intro h
  have hd : (combinedChecksum cs).data = [] := by rw [h]
  revert hd
  unfold combinedChecksum Sha256.hexStr Sha256.sha256 Sha256.be32
  simp [Sha256.hexByte]

end Zip

namespace Process

/-- One audit request of a job message; `validateMessage` never reads its
fields, so only the type tag is modelled. -/
structure Audit where
  «Type» : String
deriving DecidableEq

/-- The queue message consumed by Ingest (`message.Message` fields that §3
and `validateMessage` mention). -/
structure Message where
  Title : String
  ResponseAPIEndpoint : String
  SourceURL : String
  SourceType : String
  Slug : String
  Audits : List Audit
deriving DecidableEq

/-- The source's `validateMessage`: the returned error string, `none` when
the message is accepted. Only title, response endpoint, source url and
source type are checked. -/
def validateMessage (msg : Message) : Option String :=
  if msg.Title = "" then some "message does not have a title"
  else if msg.ResponseAPIEndpoint = "" then
    some (msg.Title ++ ": does not provide an endpoint")
  else if msg.SourceURL = "" then some (msg.Title ++ ": source url is empty")
  else if msg.SourceType = "" then
    some (msg.Title ++ ": source type is empty (e.g. zip, git)")
  else none

/-- Outcome of the checksum step of `Ingest.Do`. -/
inductive DoOutcome where
  | err (msg : String)
  | ok (checksum : String) (files : List String) (filesPath : String)
deriving DecidableEq

/-- The tail of `Ingest.Do` once the zip source manager has prepared the
files: read the combined checksum of the extracted digests, fail with
`could not calculate project checksum` when it is empty, otherwise populate
the result map with checksum, files and files path. -/
def ingestDo (checksums files : List String) (filesPath : String) : DoOutcome :=
  let checksum := Zip.combinedChecksum checksums
  if checksum = "" then DoOutcome.err "could not calculate project checksum"
  else DoOutcome.ok checksum files filesPath

/-- C6 counterexample: an empty manifest does not make `Ingest.Do` fail —
the nil digest slice hashes to the non-empty checksum SHA-256 of `null`, so
the empty-checksum branch is not taken and the result map is populated. -/
theorem ingestDo_empty_manifest_counterexample :
    ingestDo [] [] "/tmp/audit-x" ≠
      DoOutcome.err "could not calculate project checksum" ∧
    ingestDo [] [] "/tmp/audit-x" =
      DoOutcome.ok
        "74234e98afe7498fb5daf1f36ac2d78acc339464f950703b8c019892f982b90b"
        [] "/tmp/audit-x" := by
  decide

/-- C6 amended: with the zip source manager the empty-checksum error branch
of `Ingest.Do` is unreachable — `combinedChecksum` always yields a non-empty
hex string, so `Do` succeeds and populates the result map for every
manifest, the empty one included. -/
theorem ingestDo_never_empty_checksum_error
    (checksums files : List String) (filesPath : String) :
    ingestDo checksums files filesPath =
      DoOutcome.ok (Zip.combinedChecksum checksums) files filesPath := by
  unfold ingestDo
  rw [if_neg (Zip.combinedChecksum_ne_empty checksums)]

/-- C7 counterexample: a message with non-empty title, endpoint, source url
and source type is accepted by `validateMessage` even though its slug is
empty and its audits sequence is empty, both §3 required fields. -/
theorem validateMessage_slug_audits_counterexample :
    validateMessage
        ⟨"Plugin Audit", "http://api.example/v1", "http://example/x.zip",
          "zip", "", []⟩ = none ∧
    (Message.mk "Plugin Audit" "http://api.example/v1" "http://example/x.zip"
        "zip" "" []).Slug = "" ∧
    (Message.mk "Plugin Audit" "http://api.example/v1" "http://example/x.zip"
        "zip" "" []).Audits = [] := by
  decide

/-- C7 amended: `validateMessage` rejects a message exactly when its title,
response endpoint, source url or source type is empty; the slug and the
audits sequence are not validated. -/
theorem validateMessage_reject_iff (msg : Message) :
    validateMessage msg ≠ none ↔
      (msg.Title = "" ∨ msg.ResponseAPIEndpoint = "" ∨
        msg.SourceURL = "" ∨ msg.SourceType = "") := by
  unfold validateMessage
  split_ifs with h1 h2 h3 h4 <;> simp_all

end Process
